import Mathlib

/-!
Verification of the isosurface-extraction core of the Shaders repository
(src/MarchingCube/marching.cpp): the Marching Cubes mesh generator, flat
normal computation, and PLY export.

Modelling conventions:
* C++ `float` scalars are embedded as exact rationals (`ℚ`); `glm::vec3`
  becomes the `Vec3` structure below with componentwise arithmetic.
* `glm::normalize` divides by a square root, which has no exact rational
  value; the square-root operation is taken as an explicit function
  parameter `sq : ℚ → ℚ`, so every statement about `compute_normals`
  holds for any interpretation of the square root.
* The triangle lookup table `marching_cubes_lut` lives in `TriTable.hpp`,
  which is part of the repository but not among the provided sources; it
  is modelled from the spec as a parameter (see `LUTWellFormed`).
* File I/O in `write_ply` is modelled by a `canOpen : Bool` environment
  flag and a pure result record; out-of-bounds element accesses in its
  output loop are modelled with `Option`-returning list indexing.
-/

namespace MarchingCube

/-- Embedding of `glm::vec3` with exact rational components. -/
structure Vec3 where
  x : ℚ
  y : ℚ
  z : ℚ
deriving DecidableEq, Repr

instance : Add Vec3 where
  add a b := ⟨a.x + b.x, a.y + b.y, a.z + b.z⟩

instance : Sub Vec3 where
  sub a b := ⟨a.x - b.x, a.y - b.y, a.z - b.z⟩

instance : SMul ℚ Vec3 where
  smul t a := ⟨t * a.x, t * a.y, t * a.z⟩

/-- Dot product of two vectors (used for the squared length). -/
def dot (a b : Vec3) : ℚ :=
  a.x * b.x + a.y * b.y + a.z * b.z

/-- Embedding of `glm::cross`. -/
def cross (a b : Vec3) : Vec3 :=
  ⟨a.y * b.z - a.z * b.y, a.z * b.x - a.x * b.z, a.x * b.y - a.y * b.x⟩

/-- Embedding of `glm::normalize v = v / length(v)`, with the square root
of the squared length supplied by the parameter `sq`. -/
def glm_normalize (sq : ℚ → ℚ) (v : Vec3) : Vec3 :=
  (1 / sq (dot v v)) • v

/-- Embedding of `interpolateVertex` (marching.cpp lines 20-23):
`t = (isovalue - valp1) / (valp2 - valp1); return p1 + t * (p2 - p1)`. -/
def interpolateVertex (p1 p2 : Vec3) (valp1 valp2 isovalue : ℚ) : Vec3 :=
  let t : ℚ := (isovalue - valp1) / (valp2 - valp1)
  p1 + t • (p2 - p1)

/-- The cube corner offsets `cubeVerts` (marching.cpp lines 42-45). -/
def cubeVerts : Fin 8 → Vec3
  | 0 => ⟨0, 0, 0⟩
  | 1 => ⟨1, 0, 0⟩
  | 2 => ⟨1, 0, 1⟩
  | 3 => ⟨0, 0, 1⟩
  | 4 => ⟨0, 1, 0⟩
  | 5 => ⟨1, 1, 0⟩
  | 6 => ⟨1, 1, 1⟩
  | 7 => ⟨0, 1, 1⟩

/-- The edge-to-corner pairs `edgeConnections` (marching.cpp lines 48-52). -/
def edgeConnections : Fin 12 → Fin 8 × Fin 8
  | 0 => (0, 1)
  | 1 => (1, 2)
  | 2 => (2, 3)
  | 3 => (3, 0)
  | 4 => (4, 5)
  | 5 => (5, 6)
  | 6 => (6, 7)
  | 7 => (7, 4)
  | 8 => (0, 4)
  | 9 => (1, 5)
  | 10 => (2, 6)
  | 11 => (3, 7)

/-- Embedding of the configuration-index computation (marching.cpp lines
69-72): `cubeIndex |= (1 << i)` whenever `val[i] < isovalue`. -/
def cubeIndex (val : Fin 8 → ℚ) (isovalue : ℚ) : ℕ :=
  (List.finRange 8).foldl
    (fun acc i => if val i < isovalue then acc ||| (1 <<< (i : ℕ)) else acc) 0

/-- Modelled from the spec: `marching_cubes_lut` is defined in
`TriTable.hpp`, a repository file that is not among the provided sources.
The spec describes it as a fixed 256-entry table mapping a configuration
index to a sentinel-terminated list of cube-edge indices; each row is
modelled here as the sentinel-stripped list of valid edge indices
(`List (Fin 12)`), and the table itself is a parameter `lut : ℕ → List (Fin 12)`
of the mesh generator.  `LUTWellFormed` captures exactly the properties
the spec states for the table: every row's length is a multiple of 3
(triangle groups), and rows 0 and 255 (all-outside / all-inside) are
empty. -/
def LUTWellFormed (lut : ℕ → List (Fin 12)) : Prop :=
  (∀ i : Fin 256, (lut i.val).length % 3 = 0) ∧ lut 0 = [] ∧ lut 255 = []

instance (lut : ℕ → List (Fin 12)) : Decidable (LUTWellFormed lut) := by
  unfold LUTWellFormed
  infer_instance

/-- One iteration bound for the C++ loop
`for (float x = min; x < max; x += stepsize)`: the number of iterations
the loop performs in exact arithmetic. -/
def gridFuel (min max stepsize : ℚ) : ℕ :=
  (Int.ceil ((max - min) / stepsize)).toNat

/-- Structural unfolding of the loop
`for (float x = start; x < max; x += stepsize)`, collecting the visited
coordinates.  The `fuel` argument only bounds the recursion depth; the
loop guard `x < max` alone decides the result (see `gridLoop_eq_progression`,
which shows any sufficient fuel yields the same list). -/
def gridLoop (max stepsize : ℚ) : ℕ → ℚ → List ℚ
  | 0, _ => []
  | fuel + 1, x => if x < max then x :: gridLoop max stepsize fuel (x + stepsize) else []

/-- The coordinates visited by one axis of the triple loop in
`marching_cubes` (marching.cpp lines 55-57). -/
def gridPoints (min max stepsize : ℚ) : List ℚ :=
  gridLoop max stepsize (gridFuel min max stepsize) min

/-- The corner positions `pos[i]` of the cell with origin `(x, y, z)`
(marching.cpp line 64): `cubePos + cubeVerts[i] * stepsize`. -/
def cellPos (stepsize x y z : ℚ) (i : Fin 8) : Vec3 :=
  (⟨x, y, z⟩ : Vec3) + stepsize • cubeVerts i

/-- The corner samples `val[i]` (marching.cpp line 65). -/
def cellVal (f : ℚ → ℚ → ℚ → ℚ) (stepsize x y z : ℚ) (i : Fin 8) : ℚ :=
  f (cellPos stepsize x y z i).x (cellPos stepsize x y z i).y (cellPos stepsize x y z i).z

/-- The interpolated edge crossings `edgeVertex[i]` (marching.cpp lines
80-84). -/
def cellEdgeVertex (f : ℚ → ℚ → ℚ → ℚ) (isovalue stepsize x y z : ℚ)
    (i : Fin 12) : Vec3 :=
  interpolateVertex
    (cellPos stepsize x y z (edgeConnections i).1)
    (cellPos stepsize x y z (edgeConnections i).2)
    (cellVal f stepsize x y z (edgeConnections i).1)
    (cellVal f stepsize x y z (edgeConnections i).2)
    isovalue

/-- Embedding of the body of the triple loop in `marching_cubes`
(marching.cpp lines 58-94) for the cell with origin `(x, y, z)`:
sample the field at the 8 corners, derive the configuration index,
interpolate the 12 edge crossings, and emit the triangles listed by the
table row, three coordinates per vertex. -/
def processCube (lut : ℕ → List (Fin 12)) (f : ℚ → ℚ → ℚ → ℚ)
    (isovalue stepsize x y z : ℚ) : List ℚ :=
  (lut (cubeIndex (cellVal f stepsize x y z) isovalue)).flatMap
    (fun e => [(cellEdgeVertex f isovalue stepsize x y z e).x,
               (cellEdgeVertex f isovalue stepsize x y z e).y,
               (cellEdgeVertex f isovalue stepsize x y z e).z])

/-- Embedding of `marching_cubes` (marching.cpp lines 32-100): the triple
loop over cell origins in nested order x-outer, y-middle, z-inner,
accumulating the flat vertex list. -/
def marching_cubes (lut : ℕ → List (Fin 12)) (f : ℚ → ℚ → ℚ → ℚ)
    (isovalue min max stepsize : ℚ) : List ℚ :=
  (gridPoints min max stepsize).flatMap fun x =>
    (gridPoints min max stepsize).flatMap fun y =>
      (gridPoints min max stepsize).flatMap fun z =>
        processCube lut f isovalue stepsize x y z

/-- The nine floats pushed for one triangle by `compute_normals`
(marching.cpp lines 114-121): the flat-shaded normal repeated three
times. -/
def triNormal (sq : ℚ → ℚ) (v0 v1 v2 : Vec3) : List ℚ :=
  let n := glm_normalize sq (cross (v1 - v0) (v2 - v0))
  [n.x, n.y, n.z, n.x, n.y, n.z, n.x, n.y, n.z]

/-- Embedding of `compute_normals` (marching.cpp lines 106-124): the loop
`for (i = 0; i < vertices.size(); i += 9)` reads nine floats per
iteration.  When fewer than nine floats remain, the C++ loop body still
executes and its out-of-bounds vector reads are modelled as reading 0. -/
def compute_normals (sq : ℚ → ℚ) : List ℚ → List ℚ
  | [] => []
  | a :: b :: c :: d :: e :: f :: g :: h :: i :: rest =>
      triNormal sq ⟨a, b, c⟩ ⟨d, e, f⟩ ⟨g, h, i⟩ ++ compute_normals sq rest
  | l =>
      triNormal sq ⟨l.getD 0 0, l.getD 1 0, l.getD 2 0⟩
        ⟨l.getD 3 0, l.getD 4 0, l.getD 5 0⟩
        ⟨l.getD 6 0, l.getD 7 0, l.getD 8 0⟩

/-- Groups a flat float sequence into 3D points, three consecutive
components per point (spec §3, Mesh: "a flat ordered sequence of vertex
positions, grouped in triples"). -/
def toVec3s : List ℚ → List Vec3
  | x :: y :: z :: rest => ⟨x, y, z⟩ :: toVec3s rest
  | _ => []

/-- Groups a point sequence into triangles, three consecutive points per
triangle (spec §3, Mesh: "one triangle per 3 consecutive vertices"). -/
def toTriangles : List Vec3 → List (Vec3 × Vec3 × Vec3)
  | v0 :: v1 :: v2 :: rest => (v0, v1, v2) :: toTriangles rest
  | _ => []

/-- Modelled from the spec: the spec's description of Normal Computation
(§4.4), written independently of the loop in the code — per triangle
with vertices `v0, v1, v2` the normal is
`normalize(cross(v1 - v0, v2 - v0))`, repeated three times (once per
vertex).  Used as the specification side of the refinement theorem for
claim C4. -/
def compute_normals_spec (sq : ℚ → ℚ) (vertices : List ℚ) : List ℚ :=
  (toTriangles (toVec3s vertices)).flatMap fun t =>
    triNormal sq t.1 t.2.1 t.2.2

/-- The content of a PLY file as structured data: the vertex count
declared by the `element vertex` header line, and the data rows (six
floats per row) written by the output loop. -/
structure PLYDoc where
  headerVertexCount : ℕ
  dataRows : List (List ℚ)
deriving DecidableEq, Repr

/-- The observable outcome of `write_ply`: the file contents if anything
was written, and whether the failure diagnostic was reported. -/
structure PlyResult where
  file : Option PLYDoc
  errorReported : Bool
deriving DecidableEq, Repr

/-- One data row of the output loop (marching.cpp lines 152-155): the
six element accesses `vertices[3i .. 3i+2]`, `normals[3i .. 3i+2]`,
each modelled as an `Option`-returning read so that an out-of-bounds
access makes the whole row (and file) `none`. -/
def plyRow (vertices normals : List ℚ) (i : ℕ) : Option (List ℚ) := do
  let vx ← vertices[3 * i]?
  let vy ← vertices[3 * i + 1]?
  let vz ← vertices[3 * i + 2]?
  let nx ← normals[3 * i]?
  let ny ← normals[3 * i + 1]?
  let nz ← normals[3 * i + 2]?
  pure [vx, vy, vz, nx, ny, nz]

/-- Embedding of `write_ply` (marching.cpp lines 131-159).  The
environment flag `canOpen` models whether the output path can be opened:
when it cannot, the function reports the diagnostic and returns without
writing (lines 133-136).  Otherwise the header declares
`vertices.size() / 3` vertices and the loop writes that many data rows. -/
def write_ply (canOpen : Bool) (vertices normals : List ℚ) : PlyResult :=
  if canOpen = false then
    { file := none, errorReported := true }
  else
    let numVertices := vertices.length / 3
    { file := ((List.range numVertices).mapM (plyRow vertices normals)).map
        fun rows => { headerVertexCount := numVertices, dataRows := rows }
      errorReported := false }

/-- A small concrete lookup table used by witnesses: configuration 1
(only corner 0 inside) yields the standard single triangle on edges
0, 8, 3; every other configuration yields nothing.  It satisfies
`LUTWellFormed`. -/
def lutOneCorner : ℕ → List (Fin 12) :=
  fun i => if i = 1 then [0, 8, 3] else []

/-! ### Componentwise lemmas for `Vec3` arithmetic -/

theorem Vec3.add_def (a b : Vec3) : a + b = ⟨a.x + b.x, a.y + b.y, a.z + b.z⟩ := rfl

theorem Vec3.sub_def (a b : Vec3) : a - b = ⟨a.x - b.x, a.y - b.y, a.z - b.z⟩ := rfl

theorem Vec3.smul_def (t : ℚ) (a : Vec3) : t • a = ⟨t * a.x, t * a.y, t * a.z⟩ := rfl

/-! ### Bit-level characterisation of the configuration index -/

/-- Each step of the `cubeIndex` fold only ORs in single bits, so a bit of
the result is a bit of the accumulator or a bit contributed by some list
element. -/
theorem testBit_cubeIndex_foldl (val : Fin 8 → ℚ) (isovalue : ℚ)
    (L : List (Fin 8)) (acc : ℕ) (j : ℕ) :
    ((L.foldl (fun acc i => if val i < isovalue then acc ||| (1 <<< (i : ℕ)) else acc) acc).testBit j)
      = (acc.testBit j ||
          L.any fun i => decide ((i : ℕ) = j) && decide (val i < isovalue)) := by
  induction L generalizing acc with
  | nil => simp
  | cons i L ih =>
    simp only [List.foldl_cons, List.any_cons, ih]
    by_cases h : val i < isovalue
    · simp only [if_pos h, Nat.testBit_or, Nat.one_shiftLeft, Nat.testBit_two_pow,
        decide_eq_true h, Bool.and_true]
      cases acc.testBit j <;> cases hd : decide ((i : ℕ) = j) <;> simp
    · simp only [if_neg h, decide_eq_false h, Bool.and_false, Bool.false_or]

/-- Claim C1: for every cube cell, the configuration index computed by
`marching_cubes` has bit `i` set iff the sample at corner `i` is strictly
below the isovalue, and a sample exactly equal to the isovalue leaves
bit `i` unset. -/
theorem cubeIndex_testBit (val : Fin 8 → ℚ) (isovalue : ℚ) (i : Fin 8) :
    (cubeIndex val isovalue).testBit i.val = decide (val i < isovalue)
    ∧ (val i = isovalue → (cubeIndex val isovalue).testBit i.val = false) := by
  have h1 : (cubeIndex val isovalue).testBit i.val = decide (val i < isovalue) := by
    unfold cubeIndex
    rw [testBit_cubeIndex_foldl]
    simp only [Nat.zero_testBit, Bool.false_or]
    by_cases h : val i < isovalue
    · rw [decide_eq_true h, List.any_eq_true]
      exact ⟨i, List.mem_finRange i, by simp [h]⟩
    · rw [decide_eq_false h, List.any_eq_false]
      intro k _
      simp only [Bool.and_eq_true, decide_eq_true_eq, not_and]
      intro hk
      have hki : k = i := Fin.ext hk
      subst hki
      exact h
  refine ⟨h1, fun he => ?_⟩
  rw [h1, he]
  simp

theorem cubeIndex_testBit_witness :
    (cubeIndex (fun _ => (0 : ℚ)) 0).testBit 0 = false :=
  (cubeIndex_testBit (fun _ => (0 : ℚ)) 0 0).2 rfl

/-! ### Edge interpolation -/

/-- Claim C2: `interpolateVertex` returns
`p1 + ((isovalue - valp1)/(valp2 - valp1)) • (p2 - p1)`, and is exact at
the boundary cases `interp(p1,p2,0,1,0) = p1` and
`interp(p1,p2,0,1,1) = p2`. -/
theorem interpolateVertex_spec (p1 p2 : Vec3) (valp1 valp2 isovalue : ℚ)
    (h : valp1 ≠ valp2) :
    interpolateVertex p1 p2 valp1 valp2 isovalue
        = p1 + ((isovalue - valp1) / (valp2 - valp1)) • (p2 - p1)
    ∧ interpolateVertex p1 p2 0 1 0 = p1
    ∧ interpolateVertex p1 p2 0 1 1 = p2 := by
  refine ⟨rfl, ?_, ?_⟩ <;>
    simp [interpolateVertex, Vec3.add_def, Vec3.sub_def, Vec3.smul_def]

theorem interpolateVertex_spec_witness :
    (0 : ℚ) ≠ 1 ∧ interpolateVertex ⟨0, 0, 0⟩ ⟨1, 2, 3⟩ 0 1 1 = ⟨1, 2, 3⟩ :=
  ⟨by norm_num, (interpolateVertex_spec ⟨0, 0, 0⟩ ⟨1, 2, 3⟩ 0 1 1 (by norm_num)).2.2⟩

/-! ### Degenerate bounds -/

/-- The one-axis loop visits nothing when the bounds are degenerate. -/
theorem gridPoints_eq_nil_of_le (min max stepsize : ℚ) (h : max ≤ min) :
    gridPoints min max stepsize = [] := by
  unfold gridPoints
  cases gridFuel min max stepsize with
  | zero => rfl
  | succ n => simp [gridLoop, not_lt.mpr h]

/-- Claim C5: for every scalar field, isovalue and step size, degenerate
bounds `max ≤ min` make `marching_cubes` return the empty vertex
sequence (and, being a total function, it raises no error). -/
theorem marching_cubes_empty_of_degenerate_bounds (lut : ℕ → List (Fin 12))
    (f : ℚ → ℚ → ℚ → ℚ) (isovalue min max stepsize : ℚ) (h : max ≤ min) :
    marching_cubes lut f isovalue min max stepsize = [] := by
  simp [marching_cubes, gridPoints_eq_nil_of_le min max stepsize h]

theorem marching_cubes_empty_of_degenerate_bounds_witness :
    (0 : ℚ) ≤ 0 ∧
      marching_cubes (fun _ => []) (fun _ _ _ => 0) 0 0 0 1 = [] :=
  ⟨le_refl 0,
    marching_cubes_empty_of_degenerate_bounds (fun _ => []) (fun _ _ _ => 0) 0 0 0 1 (le_refl 0)⟩

/-! ### Termination of the grid traversal -/

/-- The guarded loop is fuel-insensitive: any fuel at least
`⌈(max - x)/stepsize⌉` yields the arithmetic progression of visited
coordinates, so the loop guard alone determines the traversal. -/
theorem gridLoop_eq_progression (max stepsize : ℚ) (hs : 0 < stepsize) :
    ∀ (fuel : ℕ) (x : ℚ), (Int.ceil ((max - x) / stepsize)).toNat ≤ fuel →
      gridLoop max stepsize fuel x
        = (List.range (Int.ceil ((max - x) / stepsize)).toNat).map
            (fun (k : ℕ) => x + (k : ℚ) * stepsize) := by
  intro fuel
  induction fuel with
  | zero =>
    intro x hx
    have h0 : (Int.ceil ((max - x) / stepsize)).toNat = 0 := Nat.le_zero.mp hx
    simp [gridLoop, h0]
  | succ n ih =>
    intro x hx
    by_cases h : x < max
    · have hpos : 0 < (max - x) / stepsize := div_pos (by linarith) hs
      have hceil : 0 < Int.ceil ((max - x) / stepsize) := Int.ceil_pos.mpr hpos
      have hstep : (max - (x + stepsize)) / stepsize = (max - x) / stepsize - 1 := by
        field_simp
        ring
      have hc2 : Int.ceil ((max - (x + stepsize)) / stepsize)
          = Int.ceil ((max - x) / stepsize) - 1 := by
        rw [hstep, Int.ceil_sub_one]
      have htn : (Int.ceil ((max - x) / stepsize)).toNat
          = (Int.ceil ((max - (x + stepsize)) / stepsize)).toNat + 1 := by
        rw [hc2]; omega
      rw [gridLoop, if_pos h, ih (x + stepsize) (by omega), htn,
        List.range_succ_eq_map, List.map_cons, List.map_map]
      congr 1
      · norm_num
      · congr 1
        funext k
        simp only [Function.comp_apply]
        push_cast
        ring
    · have hle : (max - x) / stepsize ≤ 0 :=
        div_nonpos_iff.mpr (Or.inr ⟨by linarith, hs.le⟩)
      have h0 : (Int.ceil ((max - x) / stepsize)).toNat = 0 := by
        have := Int.ceil_le.mpr (le_trans hle (by norm_num : (0 : ℚ) ≤ ((0 : ℤ) : ℚ)))
        omega
      rw [gridLoop, if_neg h, h0]
      simp

/-- Claim C9: with `stepsize > 0` and `max > min`, the traversal of one
axis in `marching_cubes` runs to completion in finitely many steps — it
visits exactly the `⌈(max - min)/stepsize⌉` coordinates
`min, min + stepsize, min + 2*stepsize, …` below `max`. -/
theorem gridPoints_terminates (min max stepsize : ℚ)
    (hs : 0 < stepsize) (hm : min < max) :
    gridPoints min max stepsize
        = (List.range (Int.ceil ((max - min) / stepsize)).toNat).map
            (fun (k : ℕ) => min + (k : ℚ) * stepsize)
    ∧ (gridPoints min max stepsize).length
        = (Int.ceil ((max - min) / stepsize)).toNat
    ∧ 0 < (gridPoints min max stepsize).length := by
  have heq : gridPoints min max stepsize
      = (List.range (Int.ceil ((max - min) / stepsize)).toNat).map
          (fun (k : ℕ) => min + (k : ℚ) * stepsize) :=
    gridLoop_eq_progression max stepsize hs (gridFuel min max stepsize) min (le_refl _)
  refine ⟨heq, ?_, ?_⟩
  · rw [heq, List.length_map, List.length_range]
  · rw [heq, List.length_map, List.length_range]
    have hpos : 0 < (max - min) / stepsize := div_pos (by linarith) hs
    have := Int.ceil_pos.mpr hpos
    omega

theorem gridPoints_terminates_witness :
    (0 : ℚ) < 1 ∧ (0 : ℚ) < 1 ∧ 0 < (gridPoints 0 1 1).length :=
  ⟨by norm_num, by norm_num, (gridPoints_terminates 0 1 1 (by norm_num) (by norm_num)).2.2⟩

/-! ### Output length is a multiple of nine -/

/-- The configuration index is an 8-bit value: the fold only ORs in bits
0 through 7, so the result stays below 256. -/
theorem cubeIndex_lt_256 (val : Fin 8 → ℚ) (isovalue : ℚ) :
    cubeIndex val isovalue < 256 := by
  unfold cubeIndex
  have key : ∀ (L : List (Fin 8)) (acc : ℕ), acc < 2 ^ 8 →
      (L.foldl (fun acc i => if val i < isovalue then acc ||| (1 <<< (i : ℕ)) else acc) acc)
        < 2 ^ 8 := by
    intro L
    induction L with
    | nil => intro acc h; exact h
    | cons i L ih =>
      intro acc h
      simp only [List.foldl_cons]
      apply ih
      by_cases hc : val i < isovalue
      · rw [if_pos hc]
        refine Nat.or_lt_two_pow h ?_
        rw [Nat.one_shiftLeft]
        exact Nat.pow_lt_pow_right (by norm_num) i.isLt
      · rw [if_neg hc]; exact h
  exact key _ 0 (by norm_num)

/-- Each cell contributes three floats per table entry. -/
theorem processCube_length (lut : ℕ → List (Fin 12)) (f : ℚ → ℚ → ℚ → ℚ)
    (isovalue stepsize x y z : ℚ) :
    (processCube lut f isovalue stepsize x y z).length
      = 3 * (lut (cubeIndex (cellVal f stepsize x y z) isovalue)).length := by
  unfold processCube
  simp only [List.flatMap, List.length_flatten, List.map_map]
  simp [Function.comp_def, mul_comm]

/-- Divisibility of the length of a concatenation, given divisibility of
each piece. -/
theorem dvd_length_flatMap {α : Type} (d : ℕ) (L : List α) (g : α → List ℚ)
    (h : ∀ a ∈ L, d ∣ (g a).length) : d ∣ (L.flatMap g).length := by
  induction L with
  | nil => simp
  | cons a L ih =>
    simp only [List.flatMap_cons, List.length_append]
    exact Nat.dvd_add (h a (List.mem_cons_self a L))
      (ih fun b hb => h b (List.mem_cons_of_mem _ hb))

/-- Claim C3: for every scalar field, isovalue, bounds and step size, the
flat vertex sequence produced by `marching_cubes` has length a multiple
of 9 (hence the vertex count is a multiple of 3), provided the lookup
table satisfies the spec's row invariants. -/
theorem marching_cubes_length_dvd_nine (lut : ℕ → List (Fin 12))
    (hl : LUTWellFormed lut) (f : ℚ → ℚ → ℚ → ℚ) (isovalue min max stepsize : ℚ) :
    9 ∣ (marching_cubes lut f isovalue min max stepsize).length := by
  unfold marching_cubes
  refine dvd_length_flatMap 9 _ _ fun x _ => ?_
  refine dvd_length_flatMap 9 _ _ fun y _ => ?_
  refine dvd_length_flatMap 9 _ _ fun z _ => ?_
  rw [processCube_length lut f isovalue stepsize x y z]
  have h3 : (lut (cubeIndex (cellVal f stepsize x y z) isovalue)).length % 3 = 0 :=
    hl.1 ⟨cubeIndex (cellVal f stepsize x y z) isovalue, cubeIndex_lt_256 _ _⟩
  omega

/-- The witness table satisfies the spec's row invariants. -/
theorem lutOneCorner_wellFormed : LUTWellFormed lutOneCorner := by
  refine ⟨fun i => ?_, rfl, rfl⟩
  unfold lutOneCorner
  split <;> rfl

theorem marching_cubes_length_dvd_nine_witness :
    LUTWellFormed lutOneCorner ∧
      9 ∣ (marching_cubes lutOneCorner (fun x y z => x + y + z) (1/2) 0 1 1).length :=
  ⟨lutOneCorner_wellFormed,
    marching_cubes_length_dvd_nine lutOneCorner lutOneCorner_wellFormed
      (fun x y z => x + y + z) (1/2) 0 1 1⟩

/-! ### Constant field strictly below the isovalue -/

/-- When every corner sample is strictly below the isovalue all eight
bits are set, giving configuration index 255. -/
theorem cubeIndex_of_all_below (val : Fin 8 → ℚ) (isovalue : ℚ)
    (h : ∀ i, val i < isovalue) : cubeIndex val isovalue = 255 := by
  unfold cubeIndex
  have hif : ∀ (acc : ℕ) (i : Fin 8),
      (if val i < isovalue then acc ||| (1 <<< (i : ℕ)) else acc)
        = acc ||| (1 <<< (i : ℕ)) := fun acc i => if_pos (h i)
  simp only [hif]
  decide

/-- Claim C8: for every constant scalar field strictly below the
isovalue, `marching_cubes` returns the empty vertex sequence (the
all-inside configuration row of a spec-conforming table is empty). -/
theorem marching_cubes_const_below_empty (lut : ℕ → List (Fin 12))
    (hl : LUTWellFormed lut) (c isovalue : ℚ) (hc : c < isovalue)
    (min max stepsize : ℚ) :
    marching_cubes lut (fun _ _ _ => c) isovalue min max stepsize = [] := by
  unfold marching_cubes
  rw [List.flatMap_eq_nil_iff]
  intro x _
  rw [List.flatMap_eq_nil_iff]
  intro y _
  rw [List.flatMap_eq_nil_iff]
  intro z _
  unfold processCube
  have h255 : cubeIndex (cellVal (fun _ _ _ => c) stepsize x y z) isovalue = 255 :=
    cubeIndex_of_all_below _ isovalue (fun _ => hc)
  simp only [h255, hl.2.2, List.flatMap_nil]

theorem marching_cubes_const_below_empty_witness :
    LUTWellFormed lutOneCorner ∧ (0 : ℚ) < 1 ∧
      marching_cubes lutOneCorner (fun _ _ _ => 0) 1 0 1 1 = [] :=
  ⟨lutOneCorner_wellFormed, by norm_num,
    marching_cubes_const_below_empty lutOneCorner lutOneCorner_wellFormed
      0 1 (by norm_num) 0 1 1⟩

/-! ### Normal computation -/

/-- Counterexample input for claim C4 as originally stated: on a vertex
sequence of length 3 (not a multiple of 9) the loop of `compute_normals`
still runs one full iteration and emits 9 floats, so the output length
differs from the input length. -/
theorem compute_normals_length_counterexample :
    (compute_normals (fun _ => 0) [1, 2, 3]).length ≠ ([1, 2, 3] : List ℚ).length := by
  decide

/-- Claim C4 (amended with the spec's §4.4 precondition that the input
length is a multiple of 9): `compute_normals` returns a normal sequence
of the same length as the input, equal to the spec-side description —
per triangle `v0, v1, v2` the normal `normalize(cross(v1-v0, v2-v0))`
repeated three times. -/
theorem compute_normals_correct (sq : ℚ → ℚ) (vertices : List ℚ)
    (h9 : 9 ∣ vertices.length) :
    compute_normals sq vertices = compute_normals_spec sq vertices
    ∧ (compute_normals sq vertices).length = vertices.length := by
  have H : ∀ (fuel : ℕ) (v : List ℚ), v.length ≤ fuel → 9 ∣ v.length →
      compute_normals sq v = compute_normals_spec sq v
      ∧ (compute_normals sq v).length = v.length := by
    intro fuel
    induction fuel with
    | zero =>
      intro v hle _
      have hv : v = [] := List.eq_nil_of_length_eq_zero (by omega)
      subst hv
      constructor <;> rfl
    | succ n ih =>
      intro v hle h9v
      rcases v with _ | ⟨a1, v⟩
      · constructor <;> rfl
      rcases v with _ | ⟨a2, v⟩
      · simp only [List.length_cons, List.length_nil] at h9v; omega
      rcases v with _ | ⟨a3, v⟩
      · simp only [List.length_cons, List.length_nil] at h9v; omega
      rcases v with _ | ⟨a4, v⟩
      · simp only [List.length_cons, List.length_nil] at h9v; omega
      rcases v with _ | ⟨a5, v⟩
      · simp only [List.length_cons, List.length_nil] at h9v; omega
      rcases v with _ | ⟨a6, v⟩
      · simp only [List.length_cons, List.length_nil] at h9v; omega
      rcases v with _ | ⟨a7, v⟩
      · simp only [List.length_cons, List.length_nil] at h9v; omega
      rcases v with _ | ⟨a8, v⟩
      · simp only [List.length_cons, List.length_nil] at h9v; omega
      rcases v with _ | ⟨a9, rest⟩
      · simp only [List.length_cons, List.length_nil] at h9v; omega
      simp only [List.length_cons] at hle h9v
      obtain ⟨hspec, hlen⟩ := ih rest (by omega) (by omega)
      constructor
      · show triNormal sq ⟨a1, a2, a3⟩ ⟨a4, a5, a6⟩ ⟨a7, a8, a9⟩
            ++ compute_normals sq rest = _
        rw [hspec]
        simp [compute_normals_spec, toVec3s, toTriangles]
      · show (triNormal sq ⟨a1, a2, a3⟩ ⟨a4, a5, a6⟩ ⟨a7, a8, a9⟩
            ++ compute_normals sq rest).length = _
        simp only [List.length_append, hlen, triNormal, List.length_cons,
          List.length_nil, List.length_cons]
        omega
  exact H vertices.length vertices (le_refl _) h9

theorem compute_normals_correct_witness :
    9 ∣ ([0, 0, 0, 1, 0, 0, 0, 1, 0] : List ℚ).length
    ∧ (compute_normals (fun q => q) [0, 0, 0, 1, 0, 0, 0, 1, 0]).length
        = ([0, 0, 0, 1, 0, 0, 0, 1, 0] : List ℚ).length :=
  ⟨by decide,
    (compute_normals_correct (fun q => q) [0, 0, 0, 1, 0, 0, 0, 1, 0] (by decide)).2⟩

/-! ### PLY export -/

/-- Mapping with `mapM` over `Option` preserves the length on success. -/
theorem mapM_option_length {α β : Type} (f : α → Option β) :
    ∀ (l : List α) (ys : List β), l.mapM f = some ys → ys.length = l.length := by
  intro l
  induction l with
  | nil =>
    intro ys h
    simp only [List.mapM_nil, pure, Option.some.injEq] at h
    simp [h.symm]
  | cons a l ih =>
    intro ys h
    simp only [List.mapM_cons] at h
    rcases ha : f a with _ | b <;> rw [ha] at h
    · simp at h
    rcases hl : l.mapM f with _ | bs <;> rw [hl] at h
    · simp at h
    simp only [Option.bind_some, Option.pure_def, Option.bind_eq_bind,
      Option.some_bind, Option.some.injEq] at h
    subst h
    simp [ih bs hl]

/-- Mapping with `mapM` over `Option` succeeds exactly when every
element read succeeds. -/
theorem mapM_option_isSome {α β : Type} (f : α → Option β) :
    ∀ l : List α, (l.mapM f).isSome = true ↔ ∀ a ∈ l, (f a).isSome = true := by
  intro l
  induction l with
  | nil =>
    rw [List.mapM_nil]
    simp only [Option.pure_def, Option.isSome_some, true_iff]
    intro a ha
    exact absurd ha (List.not_mem_nil a)
  | cons a l ih =>
    rcases ha : f a with _ | c
    · simp only [List.mapM_cons, ha, Option.pure_def, Option.bind_eq_bind,
        Option.none_bind, Option.isSome_none, Bool.false_eq_true, false_iff]
      intro h
      have hcontra := h a (List.mem_cons_self a l)
      rw [ha] at hcontra
      exact absurd hcontra (by simp)
    · rcases hl : l.mapM f with _ | cs
      · simp only [List.mapM_cons, ha, hl, Option.pure_def, Option.bind_eq_bind,
          Option.some_bind, Option.none_bind, Option.isSome_none,
          Bool.false_eq_true, false_iff]
        intro h
        have htail := ih.mpr fun b hb => h b (List.mem_cons_of_mem a hb)
        rw [hl] at htail
        exact absurd htail (by simp)
      · simp only [List.mapM_cons, ha, hl, Option.pure_def, Option.bind_eq_bind,
          Option.some_bind, Option.isSome_some, true_iff]
        intro b hb
        rcases List.mem_cons.mp hb with rfl | hb
        · rw [ha]; rfl
        · exact (ih.mp (by rw [hl]; rfl)) b hb

/-- One output row of `write_ply` succeeds exactly when its six element
accesses (the largest being at index `3*i + 2` into each array) are in
bounds. -/
theorem plyRow_isSome (v n : List ℚ) (i : ℕ) :
    (plyRow v n i).isSome = true ↔ 3 * i + 2 < v.length ∧ 3 * i + 2 < n.length := by
  unfold plyRow
  rcases h1 : v[3 * i]? with _ | a
  · rw [List.getElem?_eq_none_iff] at h1
    simp only [Option.bind_eq_bind, Option.none_bind, Option.isSome_none,
      Bool.false_eq_true, false_iff]
    omega
  rcases h2 : v[3 * i + 1]? with _ | b
  · rw [List.getElem?_eq_none_iff] at h2
    simp only [Option.bind_eq_bind, Option.some_bind, h2, Option.none_bind,
      Option.isSome_none, Bool.false_eq_true, false_iff]
    omega
  rcases h3 : v[3 * i + 2]? with _ | c
  · rw [List.getElem?_eq_none_iff] at h3
    simp only [Option.bind_eq_bind, Option.some_bind, h2, h3, Option.none_bind,
      Option.isSome_none, Bool.false_eq_true, false_iff]
    omega
  rcases h4 : n[3 * i]? with _ | d
  · rw [List.getElem?_eq_none_iff] at h4
    simp only [Option.bind_eq_bind, Option.some_bind, h2, h3, h4,
      Option.none_bind, Option.isSome_none, Bool.false_eq_true, false_iff]
    omega
  rcases h5 : n[3 * i + 1]? with _ | e
  · rw [List.getElem?_eq_none_iff] at h5
    simp only [Option.bind_eq_bind, Option.some_bind, h2, h3, h4, h5,
      Option.none_bind, Option.isSome_none, Bool.false_eq_true, false_iff]
    omega
  rcases h6 : n[3 * i + 2]? with _ | g
  · rw [List.getElem?_eq_none_iff] at h6
    simp only [Option.bind_eq_bind, Option.some_bind, h2, h3, h4, h5, h6,
      Option.none_bind, Option.isSome_none, Bool.false_eq_true, false_iff]
    omega
  have hv : 3 * i + 2 < v.length := by
    rcases List.getElem?_eq_some_iff.mp h3 with ⟨hlt, -⟩
    exact hlt
  have hn : 3 * i + 2 < n.length := by
    rcases List.getElem?_eq_some_iff.mp h6 with ⟨hlt, -⟩
    exact hlt
  simp only [Option.bind_eq_bind, Option.some_bind, h2, h3, h4, h5, h6]
  simp [hv, hn]

/-- Claim C6: on a successful write, the vertex count declared in the
PLY header equals `vertices.length / 3` exactly, and the number of data
rows written equals that same count, so re-parsing the exported file
reports the same vertex count. -/
theorem write_ply_header_count (v n : List ℚ) (doc : PLYDoc)
    (h : (write_ply true v n).file = some doc) :
    doc.headerVertexCount = v.length / 3
    ∧ doc.dataRows.length = v.length / 3 := by
  unfold write_ply at h
  simp only [Bool.true_eq_false, if_false, Option.map_eq_some'] at h
  obtain ⟨rows, hrows, hdoc⟩ := h
  subst hdoc
  refine ⟨rfl, ?_⟩
  have := mapM_option_length (plyRow v n) (List.range (v.length / 3)) rows hrows
  simpa using this

theorem write_ply_header_count_witness :
    (write_ply true [1, 2, 3] [4, 5, 6]).file
        = some ⟨1, [[1, 2, 3, 4, 5, 6]]⟩
    ∧ (⟨1, [[1, 2, 3, 4, 5, 6]]⟩ : PLYDoc).headerVertexCount
        = ([1, 2, 3] : List ℚ).length / 3 :=
  ⟨by decide,
    (write_ply_header_count [1, 2, 3] [4, 5, 6] ⟨1, [[1, 2, 3, 4, 5, 6]]⟩ (by decide)).1⟩

/-- Claim C7: when the output path cannot be opened, `write_ply` reports
the diagnostic and returns without writing any data; being a total
function of its inputs, it neither crashes nor aborts the caller. -/
theorem write_ply_open_failure (v n : List ℚ) :
    (write_ply false v n).file = none
    ∧ (write_ply false v n).errorReported = true :=
  ⟨rfl, rfl⟩

/-- Claim C10: the output loop of `write_ply` reads both arrays at every
index up to `3*(vertices.length/3) - 1`, so the write succeeds exactly
when the normals array covers those indices; in particular all accesses
are in bounds whenever `normals` is at least as long as `vertices`, and
there is an input with shorter `normals` whose access is out of
bounds. -/
theorem write_ply_access_bounds (v n : List ℚ) :
    ((write_ply true v n).file.isSome = true ↔ 3 * (v.length / 3) ≤ n.length)
    ∧ (v.length ≤ n.length → (write_ply true v n).file.isSome = true)
    ∧ ∃ v' n' : List ℚ, n'.length < v'.length
        ∧ (write_ply true v' n').file = none := by
  have hiff : (write_ply true v n).file.isSome = true
      ↔ 3 * (v.length / 3) ≤ n.length := by
    unfold write_ply
    simp only [Bool.true_eq_false, if_false, Option.isSome_map']
    rw [mapM_option_isSome]
    constructor
    · intro h
      rcases Nat.eq_zero_or_pos (v.length / 3) with hz | hp
      · omega
      · have hm := h (v.length / 3 - 1) (List.mem_range.mpr (by omega))
        rw [plyRow_isSome] at hm
        omega
    · intro h i hi
      rw [List.mem_range] at hi
      rw [plyRow_isSome]
      have hdm := Nat.div_mul_le_self v.length 3
      omega
  refine ⟨hiff, ?_, ⟨[0, 0, 0], [], by decide, by decide⟩⟩
  intro hle
  rw [hiff]
  have hdm := Nat.div_mul_le_self v.length 3
  omega

theorem write_ply_access_bounds_witness :
    ([1, 2, 3] : List ℚ).length ≤ ([4, 5, 6] : List ℚ).length
    ∧ (write_ply true [1, 2, 3] [4, 5, 6]).file.isSome = true :=
  ⟨by decide, (write_ply_access_bounds [1, 2, 3] [4, 5, 6]).2.1 (by decide)⟩

end MarchingCube
